import Mathlib

/- Verification of the People Manager service (main.py): owner-scoped person
records with per-owner sequence numbers, and the additive schema-migration
routine that introduces those columns.  Machine integers of the source are
modelled as `Nat`/`Int` (SQLite integers are unbounded for our purposes),
nullable columns as `Option`, and fallible endpoints as `Except`. -/

namespace PeopleManager

/-- A row of the `persons` table (class `Person` in main.py).  `id` is the
global primary key (the SQLite rowid); `user_person_id` and `owner_id` are
nullable.  When the corresponding column is absent from the schema every row
holds `none` for it. -/
structure PersonRow where
  id : Nat
  user_person_id : Option Nat
  name : String
  roll : String
  age : Int
  gender : String
  owner_id : Option Nat
deriving DecidableEq

/-- CRUD-level state: the `persons` table, kept in rowid (= `id`) order as a
SQLite table scan returns it, plus the storage's next fresh global id. -/
structure AppState where
  persons : List PersonRow
  nextId : Nat
deriving DecidableEq

/-- The sequence numbers of owner `o`'s rows:
`SELECT user_person_id FROM persons WHERE owner_id = o` with NULLs dropped
(SQL `max` ignores NULL values). -/
def ownerSeqs (o : Nat) (rows : List PersonRow) : List Nat :=
  rows.filterMap (fun r => if r.owner_id = some o then r.user_person_id else none)

/-- `SELECT max(user_person_id) FROM persons WHERE owner_id = o`, with the SQL
NULL result for an empty set collapsed to 0 exactly as `(max_val or 0)` in
`create_person` does. -/
def maxSeq (o : Nat) (rows : List PersonRow) : Nat :=
  (ownerSeqs o rows).foldr max 0

/-- A `PersonCreate` request body (used by POST and PUT). -/
structure PersonCreate where
  name : String
  roll : String
  age : Int
  gender : String
deriving DecidableEq

/-- The pydantic validation of `PersonCreate`: all strings non-empty and
`age: int = Field(..., ge=0)`. -/
def validPersonCreate (p : PersonCreate) : Prop :=
  1 ≤ p.name.length ∧ 1 ≤ p.roll.length ∧ 0 ≤ p.age ∧ 1 ≤ p.gender.length

/-- The first step of `create_person` (its first `await`): read
`max(user_person_id)` for the calling owner.  `None` is already collapsed
to 0, matching `(max_val or 0)`. -/
def createMaxRead (st : AppState) (owner : Nat) : Nat :=
  maxSeq owner st.persons

/-- The second step of `create_person`: insert a row carrying sequence number
`maxRead + 1`, owner set to the caller, global id assigned by storage, and
commit.  Returns the new state and the row reported back to the client. -/
def create_write (st : AppState) (owner : Nat) (maxRead : Nat) (p : PersonCreate) :
    AppState × PersonRow :=
  let row : PersonRow :=
    { id := st.nextId
      user_person_id := some (maxRead + 1)
      name := p.name
      roll := p.roll
      age := p.age
      gender := p.gender
      owner_id := some owner }
  ({ persons := st.persons ++ [row], nextId := st.nextId + 1 }, row)

/-- POST /persons (`create_person`), executed serially: the max-read step
followed by the insert step.  No lock, unique constraint, or retry separates
the two steps in the source. -/
def create_person (st : AppState) (owner : Nat) (p : PersonCreate) :
    AppState × PersonRow :=
  create_write st owner (createMaxRead st owner) p

/-- `n` serialized `create_person` calls by one owner; also accumulates the
sequence numbers reported back by each call, in call order. -/
def createN (st : AppState) (owner : Nat) (p : PersonCreate) :
    Nat → AppState × List (Option Nat)
  | 0 => (st, [])
  | n + 1 =>
    let r := createN st owner p n
    let c := create_person r.1 owner p
    (c.1, r.2 ++ [c.2.user_person_id])

/-- Error outcomes of the person endpoints: 404, the 400 raised for
empty/protected/unapplied PATCH payloads, and a pydantic 422. -/
inductive ApiError
  | notFound
  | invalidRequest
  | validationFailed
deriving DecidableEq

instance instDecEqExcept {ε α : Type} [DecidableEq ε] [DecidableEq α] :
    DecidableEq (Except ε α)
  | .error x, .error y =>
    if h : x = y then isTrue (by rw [h]) else isFalse (fun he => h (by cases he; rfl))
  | .error _, .ok _ => isFalse (fun he => by cases he)
  | .ok _, .error _ => isFalse (fun he => by cases he)
  | .ok x, .ok y =>
    if h : x = y then isTrue (by rw [h]) else isFalse (fun he => h (by cases he; rfl))

/-- The owner-scoped lookup used by GET/PUT/PATCH/DELETE:
`WHERE user_person_id = pid AND owner_id = caller`, first match in table
order (`.first()`).  A row whose `user_person_id` is NULL never matches. -/
def findOwned (st : AppState) (caller : Nat) (pid : Nat) : Option PersonRow :=
  st.persons.find? (fun r => decide (r.user_person_id = some pid ∧ r.owner_id = some caller))

/-- DELETE /persons/pid (`delete_person`): 404 when absent or not owned,
otherwise delete the found row (by primary key) and return its last state. -/
def delete_person (st : AppState) (caller : Nat) (pid : Nat) :
    Except ApiError (PersonRow × AppState) :=
  match findOwned st caller pid with
  | none => .error .notFound
  | some person =>
    .ok (person, { st with persons := st.persons.filter (fun r => decide (r.id ≠ person.id)) })

/-- PUT /persons/pid (`put_person`): overwrite the four mutable fields from a
validated `PersonCreate`; 404 when absent or not owned. -/
def put_person (st : AppState) (caller : Nat) (pid : Nat) (p : PersonCreate) :
    Except ApiError (PersonRow × AppState) :=
  match findOwned st caller pid with
  | none => .error .notFound
  | some person =>
    let person' :=
      { person with name := p.name, roll := p.roll, age := p.age, gender := p.gender }
    .ok (person',
      { st with persons := st.persons.map (fun r => if r.id = person.id then person' else r) })

/-- A JSON value appearing in a PATCH body (only strings and integers occur
in the person schema). -/
inductive FieldVal
  | vstr (s : String)
  | vint (n : Int)
deriving DecidableEq

/-- The declared fields of the pydantic model `PersonUpdate`. -/
def updatableKeys : List String := ["name", "roll", "age", "gender"]

/-- `protected = {"id", "owner_id", "user_person_id"}` in `patch_person`. -/
def protectedKeys : List String := ["id", "owner_id", "user_person_id"]

/-- The attribute names of the ORM class `Person` (for the `hasattr` check). -/
def personAttrs : List String :=
  ["id", "user_person_id", "name", "roll", "age", "gender", "owner_id"]

/-- Type admissibility of a value for a declared `PersonUpdate` field
(`age` is `Optional[int]`, the other three `Optional[str]`). -/
def typeOK : String × FieldVal → Bool
  | ("age", .vint _) => true
  | ("age", _) => false
  | ("name", .vstr _) => true
  | ("name", _) => false
  | ("roll", .vstr _) => true
  | ("roll", _) => false
  | ("gender", .vstr _) => true
  | ("gender", _) => false
  | _ => true

/-- pydantic parsing of a PATCH body followed by
`patch.dict(exclude_unset=True)`: keys that are not declared `PersonUpdate`
fields are dropped (pydantic's default extra-field policy), declared keys are
type-checked (`none` models a 422 validation error), and the surviving
entries keep payload order. -/
def pydanticDict (payload : List (String × FieldVal)) :
    Option (List (String × FieldVal)) :=
  let data := payload.filter (fun kv => decide (kv.1 ∈ updatableKeys))
  if data.all typeOK then some data else none

/-- `setattr(person, k, v)` for the recognized fields. -/
def setField (r : PersonRow) : String × FieldVal → PersonRow
  | ("name", .vstr s) => { r with name := s }
  | ("roll", .vstr s) => { r with roll := s }
  | ("age", .vint n) => { r with age := n }
  | ("gender", .vstr s) => { r with gender := s }
  | _ => r

/-- The `for k, v in data.items()` loop of `patch_person`: protected keys
raise 400, keys failing `hasattr` are skipped, other keys are applied and
set the `updated` flag. -/
def applyFields (r : PersonRow) (updated : Bool) :
    List (String × FieldVal) → Except ApiError (PersonRow × Bool)
  | [] => .ok (r, updated)
  | kv :: rest =>
    if kv.1 ∈ protectedKeys then .error .invalidRequest
    else if kv.1 ∈ personAttrs then applyFields (setField r kv) true rest
    else applyFields r updated rest

/-- PATCH /persons/pid (`patch_person`): owner-scoped lookup, body parsing,
empty-payload check, the field loop, and the final `updated` check, in
source order. -/
def patch_person (st : AppState) (caller : Nat) (pid : Nat)
    (payload : List (String × FieldVal)) : Except ApiError (PersonRow × AppState) :=
  match findOwned st caller pid with
  | none => .error .notFound
  | some person =>
    match pydanticDict payload with
    | none => .error .validationFailed
    | some data =>
      if data = [] then .error .invalidRequest
      else
        match applyFields person false data with
        | .error e => .error e
        | .ok (person', updated) =>
          if updated then
            .ok (person',
              { st with persons := st.persons.map (fun r => if r.id = person.id then person' else r) })
          else .error .invalidRequest

/-- All suffixes of a character list, longest first, the empty one last. -/
def suffixes : List Char → List (List Char)
  | [] => [[]]
  | c :: s => (c :: s) :: suffixes s

/-- SQL `LIKE` matching over explicit character lists: `%` matches any run of
characters (some suffix of the text matches the rest of the pattern), `_`
matches one character, anything else matches itself. -/
def likeMatch : List Char → List Char → Bool
  | [], s => s.isEmpty
  | p :: ps, s =>
    if p = '%' then (suffixes s).any (fun t => likeMatch ps t)
    else
      match s with
      | [] => false
      | c :: s' => if p = '_' then likeMatch ps s' else p == c && likeMatch ps s'

/-- ASCII lowercasing of one character, as both SQLite's `lower()` and
Python's `str.lower` act on ASCII text. -/
def asciiLower (c : Char) : Char :=
  if 'A' ≤ c ∧ c ≤ 'Z' then Char.ofNat (c.toNat + 32) else c

/-- ASCII lowercasing of a character list. -/
def lowerChars (l : List Char) : List Char := l.map asciiLower

/-- ASCII whitespace, for `str.strip()`. -/
def isSpaceChar (c : Char) : Bool :=
  decide (c = ' ' ∨ c = '\t' ∨ c = '\n' ∨ c = '\r')

/-- Python's `str.strip()`: drop whitespace from both ends. -/
def stripChars (l : List Char) : List Char :=
  ((l.dropWhile isSpaceChar).reverse.dropWhile isSpaceChar).reverse

/-- The boolean name filter of `list_persons`:
`lower(name) LIKE '%' || search.strip().lower() || '%'`. -/
def nameFilter (search : String) (nm : String) : Bool :=
  likeMatch ('%' :: lowerChars (stripChars search.data) ++ ['%']) (lowerChars nm.data)

/-- The ORDER BY comparison of `list_persons`: `ORDER BY user_person_id`
ascending with SQLite's NULLS-first convention; rows comparing equal on the
key are returned in rowid (= `id`) order, as a table scan yields them. -/
def rowLe (a b : PersonRow) : Bool :=
  match a.user_person_id, b.user_person_id with
  | none, none => decide (a.id ≤ b.id)
  | none, some _ => true
  | some _, none => false
  | some x, some y => decide (x < y) || (decide (x = y) && decide (a.id ≤ b.id))

/-- `rowLe` as a relation, for the sorting lemmas. -/
def rowLeP (a b : PersonRow) : Prop := rowLe a b = true

instance : DecidableRel rowLeP := fun a b => instDecidableEqBool (rowLe a b) true

/-- GET /persons (`list_persons`): restrict to the caller's rows, apply the
optional name filter (`if search:` — the empty string is falsy and disables
it), sort by `user_person_id`, then slice with OFFSET `skip` and LIMIT
`limit`. -/
def list_persons (st : AppState) (caller : Nat) (search : Option String)
    (skip limit : Nat) : List PersonRow :=
  let owned := st.persons.filter (fun r => decide (r.owner_id = some caller))
  let filtered :=
    match search with
    | none => owned
    | some s => if s = "" then owned else owned.filter (fun r => nameFilter s r.name)
  let sorted := List.insertionSort rowLeP filtered
  (sorted.drop skip).take limit

/-- `pre ++ p ++ post` decompositions: `p` occurs contiguously in `l`.  Used
to state "case-insensitive substring match". -/
def SubSeg (p l : List Char) : Prop := ∃ pre post, l = pre ++ p ++ post

/-- A character list free of the `LIKE` metacharacters `%` and `_`. -/
def plainList (l : List Char) : Prop := ∀ c ∈ l, ¬c = '%' ∧ ¬c = '_'

/- ------------------------------------------------------------------ -/
/- The schema migration (`_migrate` inside `lifespan`).                -/
/- ------------------------------------------------------------------ -/

/-- The individual statements `_migrate` issues; an oracle decides which of
them raise, modelling the DB-level outcomes the `try/except` blocks guard. -/
inductive MigStep
  | tableInfo
  | addOwnerCol
  | addSeqCol
  | selectOwners
  | selectRowsFor (o : Nat)
  | setSeq (pid num : Nat)
deriving DecidableEq

/-- Migration-level state: the live column set of the `persons` table as
PRAGMA reports it, plus its rows. -/
structure DBState where
  cols : List String
  rows : List PersonRow
deriving DecidableEq

/-- `UPDATE persons SET user_person_id = :num WHERE id = :rid`. -/
def updateSeq (rows : List PersonRow) (pid num : Nat) : List PersonRow :=
  rows.map (fun r => if r.id = pid then { r with user_person_id := some num } else r)

/-- `SELECT id FROM persons WHERE owner_id = :oid ORDER BY id`. -/
def ownedIds (o : Nat) (rows : List PersonRow) : List Nat :=
  List.insertionSort (· ≤ ·)
    ((rows.filter (fun r => decide (r.owner_id = some o))).map (fun r => r.id))

/-- `SELECT DISTINCT owner_id FROM persons WHERE owner_id IS NOT NULL ORDER
BY owner_id`. -/
def distinctOwners (rows : List PersonRow) : List Nat :=
  List.insertionSort (· ≤ ·) (rows.filterMap (fun r => r.owner_id)).dedup

/-- The inner `for (pid,) in rows_for_owner` loop: each UPDATE can raise —
always, when the sequence column is missing from the live schema
(`seqColOK = false`), or when the oracle injects a failure.  A raise ends
the loop (the flag turns `false`), keeping the updates already executed,
as the single enclosing `try` of the backfill does.  Successful mutations
are appended to the trace `tr`. -/
def runUpdates (oracle : MigStep → Bool) (seqColOK : Bool) (cnt : Nat)
    (rows : List PersonRow) (tr : List MigStep) :
    List Nat → List PersonRow × List MigStep × Bool
  | [] => (rows, tr, true)
  | pid :: rest =>
    if !seqColOK || oracle (.setSeq pid (cnt + 1)) then (rows, tr, false)
    else
      runUpdates oracle seqColOK (cnt + 1) (updateSeq rows pid (cnt + 1))
        (tr ++ [.setSeq pid (cnt + 1)]) rest

/-- The outer `for owner_id in owners` loop: a raising per-owner SELECT or a
raising UPDATE ends the whole loop (one `try` wraps the entire backfill),
keeping the mutations already committed. -/
def runOwners (oracle : MigStep → Bool) (seqColOK : Bool)
    (rows : List PersonRow) (tr : List MigStep) :
    List Nat → List PersonRow × List MigStep
  | [] => (rows, tr)
  | o :: rest =>
    if oracle (.selectRowsFor o) then (rows, tr)
    else
      match runUpdates oracle seqColOK 0 rows tr (ownedIds o rows) with
      | (rows', tr', true) => runOwners oracle seqColOK rows' tr' rest
      | (rows', tr', false) => (rows', tr')

/-- The backfill block: `SELECT DISTINCT owner_id` (whose failure makes the
whole block a no-op) followed by the owner loop. -/
def backfillRun (oracle : MigStep → Bool) (seqColOK : Bool)
    (rows : List PersonRow) (tr : List MigStep) : List PersonRow × List MigStep :=
  if oracle .selectOwners then (rows, tr)
  else runOwners oracle seqColOK rows tr (distinctOwners rows)

/-- One `ALTER TABLE persons ADD COLUMN`: re-adding an existing column is a
SQL error (caught, no-op), an oracle-injected failure is likewise caught,
otherwise the column is appended to the live schema. -/
def execAlter (oracle : MigStep → Bool) (step : MigStep) (col : String)
    (cols : List String) (tr : List MigStep) : List String × List MigStep :=
  if col ∈ cols then (cols, tr)
  else if oracle step then (cols, tr)
  else (cols ++ [col], tr ++ [step])

/-- `_migrate`: PRAGMA snapshot of the column set (a raising PRAGMA is caught
and leaves the snapshot empty), the guarded column adds, and the backfill
run only when the snapshot lacked `user_person_id`.  Returns the final
state and the trace of successfully executed mutation statements. -/
def _migrate (oracle : MigStep → Bool) (s : DBState) : DBState × List MigStep :=
  let cols := if oracle .tableInfo then [] else s.cols
  let a1 :=
    if "owner_id" ∈ cols then (s.cols, ([] : List MigStep))
    else execAlter oracle .addOwnerCol "owner_id" s.cols []
  let a2 :=
    if "user_person_id" ∈ cols then a1
    else execAlter oracle .addSeqCol "user_person_id" a1.1 a1.2
  if "user_person_id" ∈ cols then ({ cols := a2.1, rows := s.rows }, a2.2)
  else
    let b := backfillRun oracle (decide ("user_person_id" ∈ a2.1)) s.rows a2.2
    ({ cols := a2.1, rows := b.1 }, b.2)

/-- The oracle of a run in which every statement succeeds. -/
def noFail : MigStep → Bool := fun _ => false

/-- Global-id uniqueness of a table (the primary-key invariant). -/
def NodupIds (rows : List PersonRow) : Prop :=
  (rows.map (fun r => r.id)).Nodup

/-- Well-formedness of a pre-migration state: when the sequence column is
absent from the live schema, every row holds NULL for it. -/
def SeqColClear (s : DBState) : Prop :=
  "user_person_id" ∉ s.cols → ∀ r ∈ s.rows, r.user_person_id = none

/-- The backfill rank of row `x` for owner `o`: one more than the number of
`o`-owned rows with a smaller global id. -/
def seqRank (o : Nat) (rows : List PersonRow) (x : Nat) : Nat :=
  (rows.filter (fun r => decide (r.owner_id = some o ∧ r.id < x))).length + 1

instance : IsTotal PersonRow rowLeP where
  total a b := by
    unfold rowLeP rowLe
    rcases ha : a.user_person_id with _ | x <;> rcases hb : b.user_person_id with _ | y <;>
      simp <;> omega

instance : IsTrans PersonRow rowLeP where
  trans a b c hab hbc := by
    unfold rowLeP rowLe at hab hbc ⊢
    rcases ha : a.user_person_id with _ | x <;>
      rcases hb : b.user_person_id with _ | y <;>
        rcases hc : c.user_person_id with _ | z <;>
          simp_all <;> omega

/- ------------------------------------------------------------------ -/
/- Concrete fixtures used by counterexamples and witnesses.            -/
/- ------------------------------------------------------------------ -/

/-- A well-formed `PersonCreate` body. -/
def pFix : PersonCreate := { name := "Bob", roll := "101", age := 20, gender := "M" }

/-- The state of a freshly created store. -/
def appEmpty : AppState := { persons := [], nextId := 1 }

/-- A record owned by account 1 with sequence number 1. -/
def rowBob : PersonRow :=
  { id := 1, user_person_id := some 1, name := "Bob", roll := "101",
    age := 20, gender := "M", owner_id := some 1 }

/-- A store holding exactly `rowBob`. -/
def appOne : AppState := { persons := [rowBob], nextId := 2 }

/-- A record whose name contains an `X` between `a` and `b`. -/
def rowAxb : PersonRow :=
  { id := 1, user_person_id := some 1, name := "aXb", roll := "101",
    age := 20, gender := "M", owner_id := some 1 }

/-- A store holding exactly `rowAxb`. -/
def appAxb : AppState := { persons := [rowAxb], nextId := 2 }

/-- A legacy table in the "ownership without numbering" shape: the
`owner_id` column exists, `user_person_id` does not; rows are in rowid
order, two owners plus one ownerless legacy row. -/
def dbLegacy : DBState :=
  { cols := ["id", "name", "roll", "age", "gender", "owner_id"],
    rows := [
      { id := 2, user_person_id := none, name := "d", roll := "r4", age := 4, gender := "g", owner_id := some 1 },
      { id := 3, user_person_id := none, name := "b", roll := "r2", age := 2, gender := "g", owner_id := some 2 },
      { id := 5, user_person_id := none, name := "a", roll := "r1", age := 1, gender := "g", owner_id := none },
      { id := 7, user_person_id := none, name := "c", roll := "r3", age := 3, gender := "g", owner_id := some 1 }] }

/-- An already-current table: both migration columns present. -/
def dbCurrent : DBState :=
  { cols := ["id", "name", "roll", "age", "gender", "owner_id", "user_person_id"],
    rows := [rowBob] }

/-- A table in the oldest legacy shape: neither migration column exists. -/
def dbBare : DBState :=
  { cols := ["id", "name", "roll", "age", "gender"], rows := [] }

/-- An oracle making exactly the owner-column ALTER raise. -/
def failOwnerAdd : MigStep → Bool := fun step => decide (step = MigStep.addOwnerCol)

/-- An oracle making exactly the backfill's DISTINCT-owners SELECT raise. -/
def failSelectOwners : MigStep → Bool := fun step => decide (step = MigStep.selectOwners)

/- ------------------------------------------------------------------ -/
/- Theorems.                                                           -/
/- ------------------------------------------------------------------ -/

lemma foldr_max_concat (l : List Nat) (a n : Nat) :
    (l ++ [a]).foldr max n = max (l.foldr max n) a := by
  induction l with
  | nil => simp [Nat.max_comm]
  | cons c l ih => simp [ih, Nat.max_assoc]

lemma le_foldr_max {x : Nat} {l : List Nat} (h : x ∈ l) : x ≤ l.foldr max 0 := by
  induction l with
  | nil => cases h
  | cons c l ih =>
    rcases List.mem_cons.mp h with rfl | h
    · exact Nat.le_max_left _ _
    · exact Nat.le_trans (ih h) (Nat.le_max_right _ _)

lemma foldr_max_le {l : List Nat} {M : Nat} (h : ∀ x ∈ l, x ≤ M) : l.foldr max 0 ≤ M := by
  induction l with
  | nil => exact Nat.zero_le M
  | cons c l ih =>
    exact Nat.max_le.mpr ⟨h c (List.mem_cons_self c l), ih (fun x hx => h x (List.mem_cons_of_mem c hx))⟩

lemma foldr_max_zero_or_mem (l : List Nat) : l.foldr max 0 = 0 ∨ l.foldr max 0 ∈ l := by
  induction l with
  | nil => exact Or.inl rfl
  | cons c l ih =>
    rcases Nat.le_total c (l.foldr max 0) with h | h
    · rw [List.foldr_cons, Nat.max_eq_right h]
      rcases ih with h0 | hm
      · rw [h0]
        rcases Nat.eq_zero_of_le_zero (h0 ▸ h) with rfl
        exact Or.inr (List.mem_cons_self _ _)
      · exact Or.inr (List.mem_cons_of_mem _ hm)
    · rw [List.foldr_cons, Nat.max_eq_left h]
      exact Or.inr (List.mem_cons_self _ _)

lemma ownerSeqs_append (o : Nat) (l₁ l₂ : List PersonRow) :
    ownerSeqs o (l₁ ++ l₂) = ownerSeqs o l₁ ++ ownerSeqs o l₂ := by
  unfold ownerSeqs
  exact List.filterMap_append l₁ l₂ _

lemma ownerSeqs_eq_filter (o : Nat) (rows : List PersonRow) :
    ownerSeqs o rows =
      (rows.filter (fun r => decide (r.owner_id = some o))).filterMap
        (fun r => r.user_person_id) := by
  induction rows with
  | nil => rfl
  | cons r rows ih =>
    by_cases h : r.owner_id = some o <;>
      cases hs : r.user_person_id <;>
        simp [ownerSeqs, List.filterMap_cons, List.filter_cons, h, hs, ← ih]

lemma mem_ownerSeqs {o : Nat} {rows : List PersonRow} {r : PersonRow} {x : Nat}
    (hr : r ∈ rows) (ho : r.owner_id = some o) (hs : r.user_person_id = some x) :
    x ∈ ownerSeqs o rows := by
  unfold ownerSeqs
  exact List.mem_filterMap.mpr ⟨r, hr, by simp [ho, hs]⟩

lemma of_mem_ownerSeqs {o : Nat} {rows : List PersonRow} {x : Nat}
    (h : x ∈ ownerSeqs o rows) :
    ∃ r ∈ rows, r.owner_id = some o ∧ r.user_person_id = some x := by
  unfold ownerSeqs at h
  obtain ⟨r, hr, hf⟩ := List.mem_filterMap.mp h
  by_cases ho : r.owner_id = some o
  · exact ⟨r, hr, ho, by simpa [ho] using hf⟩
  · simp [ho] at hf

lemma create_person_snd (st : AppState) (o : Nat) (p : PersonCreate) :
    (create_person st o p).2 =
      { id := st.nextId, user_person_id := some (maxSeq o st.persons + 1),
        name := p.name, roll := p.roll, age := p.age, gender := p.gender,
        owner_id := some o } := rfl

lemma create_person_fst (st : AppState) (o : Nat) (p : PersonCreate) :
    (create_person st o p).1.persons = st.persons ++ [(create_person st o p).2] := rfl

lemma maxSeq_create (st : AppState) (o : Nat) (p : PersonCreate) :
    maxSeq o (create_person st o p).1.persons = maxSeq o st.persons + 1 := by
  rw [maxSeq, create_person_fst, ownerSeqs_append]
  have h1 : ownerSeqs o [(create_person st o p).2] = [maxSeq o st.persons + 1] := by
    simp [ownerSeqs, create_person_snd]
  rw [h1, foldr_max_concat]
  have : (ownerSeqs o st.persons).foldr max 0 = maxSeq o st.persons := rfl
  omega

lemma delete_person_ok {st : AppState} {caller pid : Nat} {q : PersonRow} {st' : AppState}
    (h : delete_person st caller pid = .ok (q, st')) :
    q.user_person_id = some pid ∧ q.owner_id = some caller ∧ q ∈ st.persons ∧
      st'.persons = st.persons.filter (fun r => decide (r.id ≠ q.id)) ∧
      st'.nextId = st.nextId := by
  unfold delete_person at h
  cases hf : findOwned st caller pid with
  | none => rw [hf] at h; exact absurd h (by simp)
  | some person =>
    rw [hf] at h
    simp only [Except.ok.injEq, Prod.mk.injEq] at h
    obtain ⟨hq, hst⟩ := h
    subst hq
    unfold findOwned at hf
    have hpred := List.find?_some hf
    simp only [decide_eq_true_eq] at hpred
    exact ⟨hpred.1, hpred.2, List.mem_of_find?_eq_some hf, by rw [← hst], by rw [← hst]⟩

lemma maxSeq_remove_lt {rows : List PersonRow} {q : PersonRow} (o : Nat)
    (hnd : NodupIds rows) (hq : q ∈ rows)
    (hlt : ∀ m, q.user_person_id = some m → m < maxSeq o rows) :
    maxSeq o (rows.filter (fun r => decide (r.id ≠ q.id))) = maxSeq o rows := by
  apply Nat.le_antisymm
  · apply foldr_max_le
    intro x hx
    have hsub : List.Sublist (ownerSeqs o (rows.filter (fun r => decide (r.id ≠ q.id))))
        (ownerSeqs o rows) := (List.filter_sublist rows).filterMap _
    exact le_foldr_max (hsub.subset hx)
  · rcases foldr_max_zero_or_mem (ownerSeqs o rows) with h0 | hmem
    · have : maxSeq o rows = 0 := h0
      omega
    · obtain ⟨a, ha, hao, has⟩ := of_mem_ownerSeqs hmem
      have hane : a.id ≠ q.id := by
        intro hid
        have haq : a = q := List.inj_on_of_nodup_map hnd ha hq hid
        subst haq
        exact absurd (hlt _ has) (by simp [maxSeq])
      have hmemf : a ∈ rows.filter (fun r => decide (r.id ≠ q.id)) :=
        List.mem_filter.mpr ⟨ha, by simpa using hane⟩
      exact le_foldr_max (mem_ownerSeqs hmemf hao has)

lemma createN_spec (st : AppState) (o : Nat) (p : PersonCreate) (n : Nat) :
    ∃ extra : List PersonRow,
      (createN st o p n).1.persons = st.persons ++ extra ∧
      (∀ r ∈ extra, r.owner_id = some o) ∧
      extra.map (fun r => r.user_person_id) =
        (List.range' (maxSeq o st.persons + 1) n).map some ∧
      maxSeq o (createN st o p n).1.persons = maxSeq o st.persons + n ∧
      (createN st o p n).2 = (List.range' (maxSeq o st.persons + 1) n).map some := by
  induction n with
  | zero => exact ⟨[], by simp [createN], by simp, by simp, by simp [createN], by simp [createN]⟩
  | succ n ih =>
    obtain ⟨extra, h1, h2, h3, h4, h5⟩ := ih
    refine ⟨extra ++ [(create_person (createN st o p n).1 o p).2], ?_, ?_, ?_, ?_, ?_⟩
    · show (create_person (createN st o p n).1 o p).1.persons = _
      rw [create_person_fst, h1, List.append_assoc]
    · intro r hr
      rcases List.mem_append.mp hr with hr | hr
      · exact h2 r hr
      · rcases List.mem_singleton.mp hr with rfl
        rw [create_person_snd]
    · rw [List.map_append, h3, create_person_snd]
      have hr : List.range' (maxSeq o st.persons + 1) (n + 1) =
          List.range' (maxSeq o st.persons + 1) n ++ [maxSeq o st.persons + 1 + 1 * n] :=
        List.range'_concat _ _
      rw [hr, List.map_append, h4]
      simp [Nat.add_comm, Nat.add_assoc, Nat.add_left_comm]
    · show maxSeq o (create_person (createN st o p n).1 o p).1.persons = _
      rw [maxSeq_create, h4]
      omega
    · show (createN st o p n).2 ++ [(create_person (createN st o p n).1 o p).2.user_person_id] = _
      rw [h5, create_person_snd]
      have hr : List.range' (maxSeq o st.persons + 1) (n + 1) =
          List.range' (maxSeq o st.persons + 1) n ++ [maxSeq o st.persons + 1 + 1 * n] :=
        List.range'_concat _ _
      rw [hr, List.map_append, h4]
      simp [Nat.add_comm, Nat.add_assoc, Nat.add_left_comm]

/-- C1 (amended): Create persists a record whose sequence number is (the
owner's current maximum, or 0 when none) + 1, owned by the caller, carrying
the storage-assigned global id, and returns it; after N serialized creates
from a state where the owner has no records, the numbers issued are exactly
1..N in order and the owner's stored records carry exactly those numbers;
the new number is never one carried by a live record of that owner; and a
create following the deletion of a record whose sequence number is below
the owner's current maximum receives old-maximum + 1.  (Deleting the record
carrying the current maximum lets its number be reused: see the
counterexample.) -/
theorem claim_c1_create_numbering (st : AppState) (o : Nat) (p : PersonCreate) (N : Nat) :
    ((create_person st o p).2.user_person_id = some (maxSeq o st.persons + 1) ∧
     (create_person st o p).2.owner_id = some o ∧
     (create_person st o p).2.id = st.nextId ∧
     (create_person st o p).1.persons = st.persons ++ [(create_person st o p).2]) ∧
    (maxSeq o st.persons = 0 →
      (createN st o p N).2 = (List.range' 1 N).map some) ∧
    (st.persons.filter (fun r => decide (r.owner_id = some o)) = [] →
      ((createN st o p N).1.persons.filter
          (fun r => decide (r.owner_id = some o))).map (fun r => r.user_person_id) =
        (List.range' 1 N).map some) ∧
    (∀ r ∈ st.persons, r.owner_id = some o →
      r.user_person_id ≠ some (maxSeq o st.persons + 1)) ∧
    (∀ caller pid q st', NodupIds st.persons →
      delete_person st caller pid = .ok (q, st') →
      (∀ m, q.user_person_id = some m → m < maxSeq caller st.persons) →
      (create_person st' caller p).2.user_person_id =
        some (maxSeq caller st.persons + 1)) := by
  refine ⟨⟨by rw [create_person_snd], by rw [create_person_snd], by rw [create_person_snd],
    create_person_fst st o p⟩, ?_, ?_, ?_, ?_⟩
  · intro h0
    obtain ⟨extra, _, _, _, _, h5⟩ := createN_spec st o p N
    rw [h5, h0]
  · intro hempty
    have hseq0 : maxSeq o st.persons = 0 := by
      have : ownerSeqs o st.persons = [] := by
        rw [ownerSeqs_eq_filter, hempty]
        rfl
      simp [maxSeq, this]
    obtain ⟨extra, h1, h2, h3, _, _⟩ := createN_spec st o p N
    rw [h1, List.filter_append, hempty, List.nil_append,
      List.filter_eq_self.mpr (fun r hr => by simpa using h2 r hr), h3, hseq0]
  · intro r hr ho hcontra
    have := le_foldr_max (mem_ownerSeqs hr ho hcontra)
    have hmax : (ownerSeqs o st.persons).foldr max 0 = maxSeq o st.persons := rfl
    omega
  · intro caller pid q st' hnd hdel hlt
    obtain ⟨_, _, hqmem, hst', _⟩ := delete_person_ok hdel
    rw [create_person_snd]
    rw [hst', maxSeq_remove_lt caller hnd hqmem hlt]

/-- C1 witness: three serialized creates by owner 1 on the empty store issue
the numbers 1, 2, 3. -/
theorem claim_c1_create_numbering_witness :
    (createN appEmpty 1 pFix 3).2 = (List.range' 1 3).map some :=
  (claim_c1_create_numbering appEmpty 1 pFix 3).2.1 (by decide)

lemma updateSeq_map_proj {α : Type} (f : PersonRow → α)
    (hf : ∀ r num, f { r with user_person_id := some num } = f r)
    (rows : List PersonRow) (pid num : Nat) :
    (updateSeq rows pid num).map f = rows.map f := by
  unfold updateSeq
  rw [List.map_map]
  refine List.map_congr_left (fun r _ => ?_)
  show f (if r.id = pid then { r with user_person_id := some num } else r) = f r
  by_cases h : r.id = pid
  · rw [if_pos h]; exact hf r num
  · rw [if_neg h]

lemma runUpdates_map_proj {α : Type} (f : PersonRow → α)
    (hf : ∀ r num, f { r with user_person_id := some num } = f r)
    (oracle : MigStep → Bool) (ok : Bool) :
    ∀ (ids : List Nat) (cnt : Nat) (rows : List PersonRow) (tr : List MigStep),
      (runUpdates oracle ok cnt rows tr ids).1.map f = rows.map f := by
  intro ids
  induction ids with
  | nil => intro cnt rows tr; rfl
  | cons pid rest ih =>
    intro cnt rows tr
    unfold runUpdates
    by_cases h : (!ok || oracle (.setSeq pid (cnt + 1))) = true
    · rw [if_pos h]
    · rw [if_neg h, ih, updateSeq_map_proj f hf]

lemma runOwners_map_proj {α : Type} (f : PersonRow → α)
    (hf : ∀ r num, f { r with user_person_id := some num } = f r)
    (oracle : MigStep → Bool) (ok : Bool) :
    ∀ (owners : List Nat) (rows : List PersonRow) (tr : List MigStep),
      (runOwners oracle ok rows tr owners).1.map f = rows.map f := by
  intro owners
  induction owners with
  | nil => intro rows tr; rfl
  | cons o rest ih =>
    intro rows tr
    unfold runOwners
    by_cases h : oracle (.selectRowsFor o) = true
    · rw [if_pos h]
    · rw [if_neg h]
      rcases hru : runUpdates oracle ok 0 rows tr (ownedIds o rows) with ⟨rows', tr', flag⟩
      have hrows' : rows'.map f = rows.map f := by
        have := runUpdates_map_proj f hf oracle ok (ownedIds o rows) 0 rows tr
        rw [hru] at this
        exact this
      cases flag
      · simpa using hrows'
      · simpa [ih] using hrows'

lemma backfillRun_map_proj {α : Type} (f : PersonRow → α)
    (hf : ∀ r num, f { r with user_person_id := some num } = f r)
    (oracle : MigStep → Bool) (ok : Bool) (rows : List PersonRow) (tr : List MigStep) :
    (backfillRun oracle ok rows tr).1.map f = rows.map f := by
  unfold backfillRun
  by_cases h : oracle .selectOwners = true
  · rw [if_pos h]
  · rw [if_neg h]; exact runOwners_map_proj f hf oracle ok _ _ _

lemma migrate_map_proj {α : Type} (f : PersonRow → α)
    (hf : ∀ r num, f { r with user_person_id := some num } = f r)
    (oracle : MigStep → Bool) (s : DBState) :
    (_migrate oracle s).1.rows.map f = s.rows.map f := by
  simp only [_migrate]
  by_cases hs : "user_person_id" ∈ (if oracle MigStep.tableInfo = true then [] else s.cols)
  · rw [if_pos hs]
  · rw [if_neg hs]
    exact backfillRun_map_proj f hf oracle _ _ _

/-- C4: the Schema Upgrader never sets or alters the owner-reference column:
for every starting state and every outcome of its individual statements
(any failure oracle), the per-row `owner_id` values after `_migrate` are
exactly the values before it. -/
theorem claim_c4_owner_frame (oracle : MigStep → Bool) (s : DBState) :
    (_migrate oracle s).1.rows.map (fun r => r.owner_id) =
      s.rows.map (fun r => r.owner_id) :=
  migrate_map_proj (fun r => r.owner_id) (fun _ _ => rfl) oracle s

lemma migrate_current_id {s : DBState} (h1 : "owner_id" ∈ s.cols)
    (h2 : "user_person_id" ∈ s.cols) : _migrate noFail s = (s, []) := by
  unfold _migrate
  simp [noFail, h1, h2]

lemma migrate_cols_mem (s : DBState) :
    "owner_id" ∈ (_migrate noFail s).1.cols ∧
      "user_person_id" ∈ (_migrate noFail s).1.cols := by
  unfold _migrate execAlter
  by_cases ho : "owner_id" ∈ s.cols <;> by_cases hs : "user_person_id" ∈ s.cols <;>
    simp [noFail, ho, hs, List.mem_append]

/-- C7: the Schema Upgrader is idempotent.  On an already-current schema
(both columns present) it is the identity and executes no mutation
statement at all; consequently a second run after any first run returns the
state unchanged with an empty mutation trace. -/
theorem claim_c7_idempotent (s : DBState) :
    ("owner_id" ∈ s.cols → "user_person_id" ∈ s.cols →
      _migrate noFail s = (s, [])) ∧
    _migrate noFail (_migrate noFail s).1 = ((_migrate noFail s).1, []) := by
  refine ⟨fun h1 h2 => migrate_current_id h1 h2, ?_⟩
  obtain ⟨h1, h2⟩ := migrate_cols_mem s
  exact migrate_current_id h1 h2

/-- C7 witness: on the already-current fixture the upgrader returns the state
unchanged with zero mutations. -/
theorem claim_c7_idempotent_witness : _migrate noFail dbCurrent = (dbCurrent, []) :=
  (claim_c7_idempotent dbCurrent).1 (by decide) (by decide)

lemma runUpdates_trace (oracle : MigStep → Bool) (ok : Bool) :
    ∀ (ids : List Nat) (cnt : Nat) (rows : List PersonRow) (tr : List MigStep),
      (∀ step ∈ tr, oracle step = false) →
      ∀ step ∈ (runUpdates oracle ok cnt rows tr ids).2.1, oracle step = false := by
  intro ids
  induction ids with
  | nil => intro cnt rows tr h; exact h
  | cons pid rest ih =>
    intro cnt rows tr h
    unfold runUpdates
    by_cases hc : (!ok || oracle (.setSeq pid (cnt + 1))) = true
    · rw [if_pos hc]; exact h
    · rw [if_neg hc]
      refine ih (cnt + 1) _ _ (fun step hstep => ?_)
      rcases List.mem_append.mp hstep with hstep | hstep
      · exact h step hstep
      · rcases List.mem_singleton.mp hstep with rfl
        simpa using (Bool.or_eq_false_iff.mp (Bool.eq_false_iff.mpr hc)).2

lemma runOwners_trace (oracle : MigStep → Bool) (ok : Bool) :
    ∀ (owners : List Nat) (rows : List PersonRow) (tr : List MigStep),
      (∀ step ∈ tr, oracle step = false) →
      ∀ step ∈ (runOwners oracle ok rows tr owners).2, oracle step = false := by
  intro owners
  induction owners with
  | nil => intro rows tr h; exact h
  | cons o rest ih =>
    intro rows tr h
    unfold runOwners
    by_cases hc : oracle (.selectRowsFor o) = true
    · rw [if_pos hc]; exact h
    · rw [if_neg hc]
      rcases hru : runUpdates oracle ok 0 rows tr (ownedIds o rows) with ⟨rows', tr', flag⟩
      have htr' : ∀ step ∈ tr', oracle step = false := by
        have := runUpdates_trace oracle ok (ownedIds o rows) 0 rows tr h
        rw [hru] at this
        exact this
      cases flag
      · simpa using htr'
      · simpa using ih rows' tr' htr'

lemma execAlter_trace (oracle : MigStep → Bool) (step0 : MigStep) (col : String)
    (cols : List String) (tr : List MigStep)
    (h : ∀ step ∈ tr, oracle step = false) :
    ∀ step ∈ (execAlter oracle step0 col cols tr).2, oracle step = false := by
  unfold execAlter
  by_cases h1 : col ∈ cols
  · rw [if_pos h1]; exact h
  · rw [if_neg h1]
    by_cases h2 : oracle step0 = true
    · rw [if_pos h2]; exact h
    · rw [if_neg h2]
      intro step hstep
      rcases List.mem_append.mp hstep with hstep | hstep
      · exact h step hstep
      · rcases List.mem_singleton.mp hstep with rfl
        exact Bool.eq_false_iff.mpr h2

/-- C8: the migration is fail-soft.  For every starting state and every
failure oracle: (1) every statement in the executed-mutation trace is one
the oracle let succeed — a failed statement never mutates anything; (2) a
failing owner-column ALTER does not abort the remaining steps: the sequence
column is still added; (3) a failing backfill SELECT degrades the whole
backfill to a no-op on the rows while the column adds stand.  The routine
itself always returns a state — no failure escapes it. -/
theorem claim_c8_fail_soft (oracle : MigStep → Bool) (s : DBState) :
    (∀ step ∈ (_migrate oracle s).2, oracle step = false) ∧
    (oracle .tableInfo = false → oracle .addOwnerCol = true →
      oracle .addSeqCol = false → "owner_id" ∉ s.cols → "user_person_id" ∉ s.cols →
      (_migrate oracle s).1.cols = s.cols ++ ["user_person_id"]) ∧
    (oracle .tableInfo = false → oracle .selectOwners = true →
      (_migrate oracle s).1.rows = s.rows) := by
  have hbt : ∀ (ok : Bool) (rows : List PersonRow) (tr : List MigStep),
      (∀ st ∈ tr, oracle st = false) →
      ∀ st ∈ (backfillRun oracle ok rows tr).2, oracle st = false := by
    intro ok rows tr h
    unfold backfillRun
    by_cases hso : oracle .selectOwners = true
    · rw [if_pos hso]; exact h
    · rw [if_neg hso]; exact runOwners_trace oracle ok _ rows tr h
  refine ⟨?_, ?_, ?_⟩
  · simp only [_migrate]
    by_cases hs : "user_person_id" ∈ (if oracle MigStep.tableInfo = true then [] else s.cols)
    · simp only [if_pos hs]
      by_cases ho : "owner_id" ∈ (if oracle MigStep.tableInfo = true then [] else s.cols)
      · simp only [if_pos ho]; intro st hst; exact absurd hst (by simp)
      · simp only [if_neg ho]
        exact execAlter_trace oracle _ _ _ _ (fun st hst => absurd hst (by simp))
    · simp only [if_neg hs]
      by_cases ho : "owner_id" ∈ (if oracle MigStep.tableInfo = true then [] else s.cols)
      · simp only [if_pos ho]
        exact hbt _ _ _ (execAlter_trace oracle _ _ _ _ (fun st hst => absurd hst (by simp)))
      · simp only [if_neg ho]
        exact hbt _ _ _ (execAlter_trace oracle _ _ _ _
          (execAlter_trace oracle _ _ _ _ (fun st hst => absurd hst (by simp))))
  · intro ht ho hs2 hno hns
    simp [_migrate, execAlter, ht, ho, hs2, hno, hns]
  · intro ht hsel
    by_cases h : "user_person_id" ∈ s.cols <;>
      simp [_migrate, backfillRun, ht, hsel, h]

/-- C8 witness: on the bare legacy fixture with a failing owner-column ALTER,
the sequence column is still added. -/
theorem claim_c8_fail_soft_witness :
    (_migrate failOwnerAdd dbBare).1.cols = dbBare.cols ++ ["user_person_id"] :=
  (claim_c8_fail_soft failOwnerAdd dbBare).2.1 (by decide) (by decide) (by decide)
    (by decide) (by decide)

lemma runUpdates_noFail_flag :
    ∀ (ids : List Nat) (cnt : Nat) (rows : List PersonRow) (tr : List MigStep),
      (runUpdates noFail true cnt rows tr ids).2.2 = true := by
  intro ids
  induction ids with
  | nil => intro cnt rows tr; rfl
  | cons pid rest ih =>
    intro cnt rows tr
    show (runUpdates noFail true (cnt + 1) (updateSeq rows pid (cnt + 1))
      (tr ++ [.setSeq pid (cnt + 1)]) rest).2.2 = true
    exact ih _ _ _

lemma runUpdates_noFail_rows :
    ∀ (ids : List Nat) (cnt : Nat) (rows : List PersonRow) (tr : List MigStep),
      List.Pairwise (· < ·) ids →
      (runUpdates noFail true cnt rows tr ids).1 =
        rows.map (fun r =>
          if r.id ∈ ids then
            { r with user_person_id := some (cnt + ids.countP (fun y => decide (y < r.id)) + 1) }
          else r) := by
  intro ids
  induction ids with
  | nil =>
    intro cnt rows tr _
    have h : ∀ r ∈ rows,
        (if r.id ∈ ([] : List Nat) then
          { r with user_person_id := some (cnt + List.countP (fun y => decide (y < r.id)) [] + 1) }
        else r) = r := fun r _ => by simp
    rw [show (runUpdates noFail true cnt rows tr []).1 = rows from rfl,
      List.map_congr_left h, List.map_id']
  | cons pid rest ih =>
    intro cnt rows tr hpw
    obtain ⟨hhead, hrest⟩ := List.pairwise_cons.mp hpw
    show (runUpdates noFail true (cnt + 1) (updateSeq rows pid (cnt + 1))
      (tr ++ [.setSeq pid (cnt + 1)]) rest).1 = _
    rw [ih (cnt + 1) _ _ hrest]
    unfold updateSeq
    rw [List.map_map]
    refine List.map_congr_left fun r hr => ?_
    show (fun a => if a.id ∈ rest then
            { a with user_person_id := some (cnt + 1 + rest.countP (fun y => decide (y < a.id)) + 1) }
          else a)
        (if r.id = pid then { r with user_person_id := some (cnt + 1) } else r) = _
    by_cases hid : r.id = pid
    · rw [if_pos hid]
      dsimp only
      have h1 : r.id ∉ rest := by
        rw [hid]; intro hm; exact lt_irrefl pid (hhead pid hm)
      have h2 : rest.countP (fun y => decide (y < r.id)) = 0 := by
        rw [List.countP_eq_zero]
        intro y hy
        have := hhead y hy
        simp only [decide_eq_true_eq]
        omega
      have h3 : (decide (pid < r.id)) = false := by
        simp only [decide_eq_false_iff_not]
        omega
      rw [if_neg h1, if_pos (List.mem_cons.mpr (Or.inl hid)), List.countP_cons, h2, h3]
      simp
    · rw [if_neg hid]
      dsimp only
      by_cases hmem : r.id ∈ rest
      · rw [if_pos hmem, if_pos (List.mem_cons.mpr (Or.inr hmem)), List.countP_cons]
        have hlt : pid < r.id := hhead _ hmem
        have h3 : (decide (pid < r.id)) = true := by simpa using hlt
        rw [h3, if_pos rfl]
        exact congrArg (fun v => ({ r with user_person_id := some v } : PersonRow)) (by omega)
      · rw [if_neg hmem, if_neg (by simp [hid, hmem])]

lemma nodup_ownedIds {o : Nat} {rows : List PersonRow} (h : NodupIds rows) :
    (ownedIds o rows).Nodup := by
  unfold ownedIds
  unfold NodupIds at h
  refine (List.perm_insertionSort _ _).symm.nodup ?_
  exact ((List.filter_sublist rows).map (fun r => r.id)).nodup h

lemma pairwise_lt_ownedIds {o : Nat} {rows : List PersonRow} (h : NodupIds rows) :
    List.Pairwise (· < ·) (ownedIds o rows) :=
  ((List.sorted_insertionSort _ _).and (nodup_ownedIds h)).imp
    (fun hab => lt_of_le_of_ne hab.1 hab.2)

lemma mem_ownedIds {o : Nat} {rows : List PersonRow} (h : NodupIds rows)
    {r : PersonRow} (hr : r ∈ rows) :
    r.id ∈ ownedIds o rows ↔ r.owner_id = some o := by
  unfold ownedIds
  rw [(List.perm_insertionSort _ _).mem_iff]
  constructor
  · intro hm
    obtain ⟨r', hr', hid⟩ := List.mem_map.mp hm
    obtain ⟨hr'mem, hr'own⟩ := List.mem_filter.mp hr'
    have : r' = r := List.inj_on_of_nodup_map h hr'mem hr hid
    subst this
    simpa using hr'own
  · intro ho
    exact List.mem_map.mpr ⟨r, List.mem_filter.mpr ⟨hr, by simpa using ho⟩, rfl⟩

lemma countP_ownedIds (o : Nat) (rows : List PersonRow) (x : Nat) :
    (ownedIds o rows).countP (fun y => decide (y < x)) + 1 = seqRank o rows x := by
  unfold ownedIds seqRank
  rw [(List.perm_insertionSort _ _).countP_eq, List.countP_map,
    ← List.countP_eq_length_filter]
  congr 1
  rw [List.countP_filter]
  refine List.countP_congr fun r _ => ?_
  simp [Function.comp, and_comm]

lemma nodupIds_map (rows : List PersonRow) (f : PersonRow → PersonRow)
    (hid : ∀ r, (f r).id = r.id) (h : NodupIds rows) : NodupIds (rows.map f) := by
  unfold NodupIds at *
  rw [List.map_map]
  have hcongr : rows.map ((fun r => r.id) ∘ f) = rows.map (fun r => r.id) :=
    List.map_congr_left (fun r _ => hid r)
  rw [hcongr]
  exact h

lemma seqRank_map (o : Nat) (x : Nat) (rows : List PersonRow) (f : PersonRow → PersonRow)
    (hpres : ∀ r, (f r).id = r.id ∧ (f r).owner_id = r.owner_id) :
    seqRank o (rows.map f) x = seqRank o rows x := by
  unfold seqRank
  congr 1
  rw [← List.countP_eq_length_filter, ← List.countP_eq_length_filter, List.countP_map]
  exact List.countP_congr fun r _ => by
    simp [Function.comp, (hpres r).1, (hpres r).2]

lemma nodup_distinctOwners (rows : List PersonRow) : (distinctOwners rows).Nodup := by
  unfold distinctOwners
  exact (List.perm_insertionSort _ _).symm.nodup (List.nodup_dedup _)

lemma mem_distinctOwners {rows : List PersonRow} {o : Nat} :
    o ∈ distinctOwners rows ↔ ∃ r ∈ rows, r.owner_id = some o := by
  unfold distinctOwners
  rw [(List.perm_insertionSort _ _).mem_iff, List.mem_dedup, List.mem_filterMap]

lemma runOwners_noFail_rows :
    ∀ (owners : List Nat) (rows : List PersonRow) (tr : List MigStep),
      NodupIds rows → owners.Nodup →
      (runOwners noFail true rows tr owners).1 =
        rows.map (fun r =>
          match r.owner_id with
          | some o =>
            if o ∈ owners then { r with user_person_id := some (seqRank o rows r.id) }
            else r
          | none => r) := by
  intro owners
  induction owners with
  | nil =>
    intro rows tr _ _
    have h : ∀ r ∈ rows,
        (match r.owner_id with
         | some o =>
           if o ∈ ([] : List Nat) then { r with user_person_id := some (seqRank o rows r.id) }
           else r
         | none => r) = r := by
      intro r _
      rcases ho : r.owner_id with _ | o' <;> simp [ho]
    rw [show (runOwners noFail true rows tr []).1 = rows from rfl,
      List.map_congr_left h, List.map_id']
  | cons o rest ih =>
    intro rows tr hnd hnodup
    obtain ⟨honotin, hrestnd⟩ := List.nodup_cons.mp hnodup
    show (match runUpdates noFail true 0 rows tr (ownedIds o rows) with
         | (rows', tr', true) => runOwners noFail true rows' tr' rest
         | (rows', tr', false) => (rows', tr')).1 = _
    rcases hru : runUpdates noFail true 0 rows tr (ownedIds o rows) with ⟨rows', tr', flag⟩
    have hflag : flag = true := by
      have := runUpdates_noFail_flag (ownedIds o rows) 0 rows tr
      rw [hru] at this
      exact this
    subst hflag
    have hrows' : rows' = rows.map (fun r =>
        match r.owner_id with
        | some o' =>
          if o' = o then { r with user_person_id := some (seqRank o rows r.id) } else r
        | none => r) := by
      have hchar := runUpdates_noFail_rows (ownedIds o rows) 0 rows tr (pairwise_lt_ownedIds hnd)
      rw [hru] at hchar
      dsimp only at hchar
      rw [hchar]
      refine List.map_congr_left fun r hr => ?_
      by_cases hmem : r.id ∈ ownedIds o rows
      · rw [if_pos hmem]
        have ho : r.owner_id = some o := (mem_ownedIds hnd hr).mp hmem
        have hv : 0 + (ownedIds o rows).countP (fun y => decide (y < r.id)) + 1 =
            seqRank o rows r.id := by
          rw [Nat.zero_add]
          exact countP_ownedIds o rows r.id
        simp only [ho]
        rw [hv]
        simp
      · rw [if_neg hmem]
        rcases ho : r.owner_id with _ | o'
        · simp [ho]
        · have hne : o' ≠ o := fun he => hmem ((mem_ownedIds hnd hr).mpr (by rw [ho, he]))
          simp [ho, hne]
    have hnd' : NodupIds rows' := by
      rw [hrows']
      refine nodupIds_map rows _ (fun r => ?_) hnd
      rcases hw : r.owner_id with _ | o'
      · simp [hw]
      · by_cases hwe : o' = o <;> simp [hw, hwe]
    show (runOwners noFail true rows' tr' rest).1 = _
    rw [ih rows' tr' hnd' hrestnd]
    rw [hrows', List.map_map]
    refine List.map_congr_left fun r hr => ?_
    rcases ho : r.owner_id with _ | o'
    · simp [ho]
    · by_cases he : o' = o
      · subst he
        simp [ho, honotin]
      · have hsr : seqRank o' (rows.map (fun r =>
            match r.owner_id with
            | some o' =>
              if o' = o then { r with user_person_id := some (seqRank o rows r.id) } else r
            | none => r)) r.id = seqRank o' rows r.id := by
          refine seqRank_map o' r.id rows _ fun a => ?_
          rcases ha : a.owner_id with _ | a'
          · simp [ha]
          · by_cases hae : a' = o <;> simp [ha, hae]
        by_cases hm : o' ∈ rest
        · simp [ho, he, hm, hsr]
        · simp [ho, he, hm]

lemma backfillRun_noFail_rows (rows : List PersonRow) (tr : List MigStep)
    (hnd : NodupIds rows) :
    (backfillRun noFail true rows tr).1 =
      rows.map (fun r =>
        match r.owner_id with
        | some o => { r with user_person_id := some (seqRank o rows r.id) }
        | none => r) := by
  unfold backfillRun
  rw [if_neg (by simp [noFail])]
  rw [runOwners_noFail_rows (distinctOwners rows) rows tr hnd (nodup_distinctOwners rows)]
  refine List.map_congr_left fun r hr => ?_
  rcases ho : r.owner_id with _ | o
  · simp [ho]
  · have hmem : o ∈ distinctOwners rows := mem_distinctOwners.mpr ⟨r, hr, ho⟩
    simp [ho, hmem]

/-- C3: the backfill runs only when the sequence column was absent from the
inspected column set (when present, the rows are untouched); when it runs,
every row owned by some account receives sequence number 1 + (the number of
that owner's rows with a smaller global id) — precisely the 1, 2, 3, …
enumeration of that owner's rows in ascending global-id order — while rows
with no owner reference are left untouched and hence without a sequence
number. -/
theorem claim_c3_backfill (s : DBState) (hnd : NodupIds s.rows) :
    ("user_person_id" ∈ s.cols → (_migrate noFail s).1.rows = s.rows) ∧
    ("user_person_id" ∉ s.cols →
      (_migrate noFail s).1.rows =
        s.rows.map (fun r =>
          match r.owner_id with
          | some o => { r with user_person_id := some (seqRank o s.rows r.id) }
          | none => r) ∧
      (SeqColClear s → ∀ r ∈ (_migrate noFail s).1.rows,
        r.owner_id = none → r.user_person_id = none)) := by
  constructor
  · intro hmem
    simp only [_migrate]
    have hcond : "user_person_id" ∈ (if noFail MigStep.tableInfo = true then [] else s.cols) := by
      simpa [noFail] using hmem
    simp only [if_pos hcond]
  · intro hnmem
    have hcond : "user_person_id" ∉ (if noFail MigStep.tableInfo = true then [] else s.cols) := by
      simpa [noFail] using hnmem
    have heq : (_migrate noFail s).1.rows =
        s.rows.map (fun r =>
          match r.owner_id with
          | some o => { r with user_person_id := some (seqRank o s.rows r.id) }
          | none => r) := by
      simp only [_migrate, if_neg hcond]
      by_cases ho2 : "owner_id" ∈ (if noFail MigStep.tableInfo = true then [] else s.cols)
      · simp only [if_pos ho2]
        have ha2 : execAlter noFail .addSeqCol "user_person_id" (s.cols, ([] : List MigStep)).1
            (s.cols, ([] : List MigStep)).2 =
            (s.cols ++ ["user_person_id"], [MigStep.addSeqCol]) := by
          simp [execAlter, noFail, hnmem]
        rw [ha2]
        have hok : (decide ("user_person_id" ∈
            (s.cols ++ ["user_person_id"], [MigStep.addSeqCol]).1)) = true := by
          simp
        rw [hok]
        exact backfillRun_noFail_rows s.rows _ hnd
      · simp only [if_neg ho2]
        have hno : "owner_id" ∉ s.cols := by simpa [noFail] using ho2
        have ha1 : execAlter noFail .addOwnerCol "owner_id" s.cols [] =
            (s.cols ++ ["owner_id"], [MigStep.addOwnerCol]) := by
          simp [execAlter, noFail, hno]
        rw [ha1]
        have ha2 : execAlter noFail .addSeqCol "user_person_id"
            (s.cols ++ ["owner_id"], [MigStep.addOwnerCol]).1
            (s.cols ++ ["owner_id"], [MigStep.addOwnerCol]).2 =
            (s.cols ++ ["owner_id"] ++ ["user_person_id"],
              [MigStep.addOwnerCol, MigStep.addSeqCol]) := by
          simp [execAlter, noFail, hnmem]
        rw [ha2]
        have hok : (decide ("user_person_id" ∈
            (s.cols ++ ["owner_id"] ++ ["user_person_id"],
              [MigStep.addOwnerCol, MigStep.addSeqCol]).1)) = true := by
          simp
        rw [hok]
        exact backfillRun_noFail_rows s.rows _ hnd
    refine ⟨heq, fun hclear r' hr' hnone => ?_⟩
    rw [heq] at hr'
    obtain ⟨r, hr, hmap⟩ := List.mem_map.mp hr'
    rcases ho : r.owner_id with _ | o
    · have : r' = r := by rw [← hmap]; simp [ho]
      rw [this]
      exact hclear hnmem r hr
    · exfalso
      have : r'.owner_id = some o := by rw [← hmap]; simp [ho]
      rw [hnone] at this
      exact Option.noConfusion this

/-- C3 witness: on the legacy fixture (owner column present, sequence column
absent, owners 1 and 2 plus an ownerless row) the backfill numbers owner 1's
rows (ids 2, 7) as 1, 2, owner 2's row (id 3) as 1, and leaves the ownerless
row (id 5) without a sequence number. -/
theorem claim_c3_backfill_witness :
    (_migrate noFail dbLegacy).1.rows =
      dbLegacy.rows.map (fun r =>
        match r.owner_id with
        | some o => { r with user_person_id := some (seqRank o dbLegacy.rows r.id) }
        | none => r) :=
  ((claim_c3_backfill dbLegacy (by unfold NodupIds; decide)).2 (by decide)).1

/-- C2: the protected-field arm of the claim fails on the code.  pydantic
drops keys that are not declared `PersonUpdate` fields before `patch_person`
ever sees them, so its protected-field check is unreachable: a payload
carrying `owner_id: 5` **together with** a recognized field succeeds with
200 instead of failing with InvalidRequest.  The spec-listed payloads
(`owner_id` alone, empty, unknown-only) do fail with InvalidRequest, but
only because nothing recognized survives parsing. -/
theorem claim_c2_protected_field_bypass :
    patch_person appOne 1 1 [("owner_id", FieldVal.vint 5), ("name", FieldVal.vstr "X")] =
      .ok ({ rowBob with name := "X" },
           { appOne with persons := [{ rowBob with name := "X" }] }) ∧
    patch_person appOne 1 1 [("owner_id", FieldVal.vint 5)] = .error .invalidRequest ∧
    patch_person appOne 1 1 [] = .error .invalidRequest ∧
    patch_person appOne 1 1 [("nickname", FieldVal.vstr "B")] = .error .invalidRequest := by
  decide

/-- C9: `PersonUpdate` declares `age: Optional[int]` with no `ge=0` bound,
so PartialUpdate stores a negative age: patching the record with
`age: -1` succeeds and leaves a stored record whose age is negative,
violating the non-negative-age invariant the claim states. -/
theorem claim_c9_negative_age :
    patch_person appOne 1 1 [("age", FieldVal.vint (-1))] =
      .ok ({ rowBob with age := -1 },
           { appOne with persons := [{ rowBob with age := -1 }] }) ∧
    ({ rowBob with age := -1 } : PersonRow).age < 0 := by
  decide

/-- C10: `create_person` has no lock, no unique constraint on
`(owner_id, user_person_id)`, and no retry: the max-read and the insert are
separate steps.  Interleaving two creates by owner 1 as read, read, write,
write makes both commit records with sequence number 1 — two distinct rows
of the same owner carrying the same sequence number end up in the store,
refuting the claimed serialization. -/
theorem claim_c10_race :
    (create_write appEmpty 1 (createMaxRead appEmpty 1) pFix).2.user_person_id = some 1 ∧
    (create_write (create_write appEmpty 1 (createMaxRead appEmpty 1) pFix).1 1
        (createMaxRead appEmpty 1) pFix).2.user_person_id = some 1 ∧
    (create_write appEmpty 1 (createMaxRead appEmpty 1) pFix).2 ∈
      (create_write (create_write appEmpty 1 (createMaxRead appEmpty 1) pFix).1 1
        (createMaxRead appEmpty 1) pFix).1.persons ∧
    (create_write (create_write appEmpty 1 (createMaxRead appEmpty 1) pFix).1 1
        (createMaxRead appEmpty 1) pFix).2 ∈
      (create_write (create_write appEmpty 1 (createMaxRead appEmpty 1) pFix).1 1
        (createMaxRead appEmpty 1) pFix).1.persons ∧
    (create_write appEmpty 1 (createMaxRead appEmpty 1) pFix).2.owner_id = some 1 ∧
    (create_write (create_write appEmpty 1 (createMaxRead appEmpty 1) pFix).1 1
        (createMaxRead appEmpty 1) pFix).2.owner_id = some 1 ∧
    (create_write appEmpty 1 (createMaxRead appEmpty 1) pFix).2.id ≠
      (create_write (create_write appEmpty 1 (createMaxRead appEmpty 1) pFix).1 1
        (createMaxRead appEmpty 1) pFix).2.id := by
  decide

/-- C1 counterexample: "never a reused number" fails.  Owner 1 creates two
records (issued numbers 1 and 2), deletes the record with sequence number 2
(the current maximum), and creates again: the new record is issued sequence
number 2 — a previously issued number, and not old-maximum + 1 = 3. -/
theorem claim_c1_counterexample :
    (createN appEmpty 1 pFix 2).2 = [some 1, some 2] ∧
    (delete_person (createN appEmpty 1 pFix 2).1 1 2).toOption.map
        (fun x => (create_person x.2 1 pFix).2.user_person_id) = some (some 2) := by
  decide

/-- C6: Delete, addressed by per-owner sequence number, removes exactly the
caller's record with that number and returns its last state; it fails with
NotFound when no such owned record exists; and every other record survives
unchanged, in order — no renumbering or compaction. -/
theorem claim_c6_delete (st : AppState) (caller pid : Nat) :
    (∀ q st', delete_person st caller pid = .ok (q, st') →
      q.owner_id = some caller ∧ q.user_person_id = some pid ∧ q ∈ st.persons ∧
      List.Sublist st'.persons st.persons ∧
      (∀ r ∈ st.persons, r.id ≠ q.id → r ∈ st'.persons) ∧
      (∀ r ∈ st'.persons, r ∈ st.persons ∧ r.id ≠ q.id)) ∧
    ((∀ r ∈ st.persons, ¬(r.user_person_id = some pid ∧ r.owner_id = some caller)) →
      delete_person st caller pid = .error .notFound) := by
  constructor
  · intro q st' h
    unfold delete_person at h
    cases hf : findOwned st caller pid with
    | none => rw [hf] at h; exact absurd h (by simp)
    | some person =>
      rw [hf] at h
      simp only [Except.ok.injEq, Prod.mk.injEq] at h
      obtain ⟨hq, hst⟩ := h
      subst hq
      unfold findOwned at hf
      have hpred := List.find?_some hf
      simp only [decide_eq_true_eq] at hpred
      have hmem := List.mem_of_find?_eq_some hf
      refine ⟨hpred.2, hpred.1, hmem, ?_, ?_, ?_⟩
      · rw [← hst]; exact List.filter_sublist st.persons
      · intro r hr hne
        rw [← hst]
        exact List.mem_filter.mpr ⟨hr, by simpa using hne⟩
      · intro r hr
        rw [← hst] at hr
        have := List.mem_filter.mp hr
        exact ⟨this.1, by simpa using this.2⟩
  · intro hnone
    unfold delete_person findOwned
    rw [List.find?_eq_none.mpr (fun r hr => by simpa using hnone r hr)]

/-- C6 witness: deleting record 1 from the one-record store succeeds, and
the deleted record is owned by the caller. -/
theorem claim_c6_delete_witness : rowBob.owner_id = some 1 :=
  ((claim_c6_delete appOne 1 1).1 rowBob { persons := [], nextId := 2 } (by decide)).1

/-- C5 counterexample: the name filter is not a substring match.  The SQL
LIKE pattern is built from the raw search text, so `%` acts as a wildcard:
searching for "a%b" returns the record named "aXb" even though "a%b" is not
a substring of the lowercased name. -/
theorem claim_c5_counterexample :
    rowAxb ∈ list_persons appAxb 1 (some "a%b") 0 50 ∧
    ¬SubSeg (lowerChars (stripChars "a%b".data)) (lowerChars "aXb".data) := by
  constructor
  · decide
  · intro hsub
    obtain ⟨pre, post, h⟩ := hsub
    have e1 : lowerChars (stripChars "a%b".data) = ['a', '%', 'b'] := by decide
    have e2 : lowerChars "aXb".data = ['a', 'x', 'b'] := by decide
    rw [e1, e2] at h
    have hl := congrArg List.length h
    simp only [List.length_append, List.length_cons, List.length_nil] at hl
    have hpre : pre = [] := List.eq_nil_of_length_eq_zero (by omega)
    have hpost : post = [] := List.eq_nil_of_length_eq_zero (by omega)
    subst hpre; subst hpost
    simp only [List.nil_append, List.append_nil] at h
    exact absurd h (by decide)

lemma mem_suffixes (s t : List Char) : t ∈ suffixes s ↔ ∃ i, s.drop i = t := by
  induction s generalizing t with
  | nil =>
    constructor
    · intro h
      rcases List.mem_singleton.mp h with rfl
      exact ⟨0, rfl⟩
    · rintro ⟨i, hi⟩
      rw [List.drop_nil] at hi
      subst hi
      exact List.mem_singleton.mpr rfl
  | cons c s ih =>
    constructor
    · intro h
      rcases List.mem_cons.mp h with rfl | h
      · exact ⟨0, rfl⟩
      · obtain ⟨i, hi⟩ := (ih _).mp h
        exact ⟨i + 1, hi⟩
    · rintro ⟨i, hi⟩
      cases i with
      | zero => rw [List.drop_zero] at hi; rw [← hi]; exact List.mem_cons_self _ _
      | succ i => exact List.mem_cons_of_mem _ ((ih _).mpr ⟨i, hi⟩)

lemma likeMatch_pct_singleton (t : List Char) : likeMatch ['%'] t = true := by
  show (if ('%' : Char) = '%' then (suffixes t).any (fun x => likeMatch [] x) else _) = true
  rw [if_pos rfl, List.any_eq_true]
  exact ⟨[], (mem_suffixes t []).mpr ⟨t.length, List.drop_length t⟩, rfl⟩

lemma likeMatch_pct (ps : List Char) (t : List Char) :
    likeMatch ('%' :: ps) t = true ↔ ∃ i, likeMatch ps (t.drop i) = true := by
  show (if ('%' : Char) = '%' then (suffixes t).any (fun x => likeMatch ps x) else _) = true ↔ _
  rw [if_pos rfl, List.any_eq_true]
  constructor
  · rintro ⟨x, hx, hm⟩
    obtain ⟨i, hi⟩ := (mem_suffixes t x).mp hx
    exact ⟨i, by rw [hi]; exact hm⟩
  · rintro ⟨i, hm⟩
    exact ⟨t.drop i, (mem_suffixes t _).mpr ⟨i, rfl⟩, hm⟩

lemma likeMatch_plain_concat :
    ∀ (p : List Char), plainList p →
      ∀ t, (likeMatch (p ++ ['%']) t = true ↔ ∃ t₁, t = p ++ t₁) := by
  intro p
  induction p with
  | nil =>
    intro _ t
    simp only [List.nil_append]
    rw [likeMatch_pct_singleton]
    exact ⟨fun _ => ⟨t, rfl⟩, fun _ => rfl⟩
  | cons a p ih =>
    intro hp t
    have ha1 : ¬a = '%' := (hp a (List.mem_cons_self _ _)).1
    have ha2 : ¬a = '_' := (hp a (List.mem_cons_self _ _)).2
    have hp' : plainList p := fun c hc => hp c (List.mem_cons_of_mem _ hc)
    cases t with
    | nil =>
      constructor
      · intro h
        exfalso
        rw [List.cons_append] at h
        have hfalse : likeMatch (a :: (p ++ ['%'])) [] = false := by
          show (if a = '%' then (suffixes []).any (fun x => likeMatch (p ++ ['%']) x)
            else false) = false
          rw [if_neg ha1]
        rw [hfalse] at h
        exact Bool.false_ne_true h
      · rintro ⟨t₁, ht⟩
        exact absurd ht (by simp)
    | cons c t' =>
      have hstep : likeMatch ((a :: p) ++ ['%']) (c :: t') =
          (a == c && likeMatch (p ++ ['%']) t') := by
        rw [List.cons_append]
        show (if a = '%' then (suffixes (c :: t')).any (fun x => likeMatch (p ++ ['%']) x)
          else if a = '_' then likeMatch (p ++ ['%']) t'
          else a == c && likeMatch (p ++ ['%']) t') = _
        rw [if_neg ha1, if_neg ha2]
      rw [hstep]
      constructor
      · intro h
        obtain ⟨hac, hm⟩ : a = c ∧ likeMatch (p ++ ['%']) t' = true := by simpa using h
        obtain ⟨t₁, ht₁⟩ := (ih hp' t').mp hm
        refine ⟨t₁, ?_⟩
        rw [List.cons_append, ← ht₁, hac]
      · rintro ⟨t₁, ht⟩
        rw [List.cons_append] at ht
        injection ht with h1 h2
        have hm : likeMatch (p ++ ['%']) t' = true := (ih hp' t').mpr ⟨t₁, h2⟩
        simp [h1, hm]

lemma likeMatch_plain_sub (p t : List Char) (hp : plainList p) :
    likeMatch ('%' :: p ++ ['%']) t = true ↔ SubSeg p t := by
  rw [show ('%' :: p ++ ['%']) = '%' :: (p ++ ['%']) from rfl, likeMatch_pct]
  constructor
  · rintro ⟨i, hm⟩
    obtain ⟨t₁, ht₁⟩ := (likeMatch_plain_concat p hp _).mp hm
    exact ⟨t.take i, t₁, by rw [List.append_assoc, ← ht₁, List.take_append_drop]⟩
  · rintro ⟨pre, post, h⟩
    refine ⟨pre.length, (likeMatch_plain_concat p hp _).mpr ⟨post, ?_⟩⟩
    rw [h, List.append_assoc, List.drop_left]

lemma list_persons_mem {st : AppState} {caller : Nat} {search : Option String}
    {skip limit : Nat} {r : PersonRow}
    (h : r ∈ list_persons st caller search skip limit) :
    r ∈ st.persons ∧ r.owner_id = some caller ∧
      (∀ s, search = some s → s ≠ "" → nameFilter s r.name = true) := by
  unfold list_persons at h
  have h1 := (List.take_sublist _ _).subset h
  have h2 := (List.drop_sublist _ _).subset h1
  rw [(List.perm_insertionSort rowLeP _).mem_iff] at h2
  rcases search with _ | s <;> dsimp only at h2
  · obtain ⟨hmem, hown⟩ := List.mem_filter.mp h2
    exact ⟨hmem, by simpa using hown, fun s hs => by cases hs⟩
  · by_cases hs : s = ""
    · rw [if_pos hs] at h2
      obtain ⟨hmem, hown⟩ := List.mem_filter.mp h2
      refine ⟨hmem, by simpa using hown, fun s' hs' hne => ?_⟩
      rw [Option.some.injEq] at hs'
      rw [← hs', hs] at hne
      exact absurd rfl hne
    · rw [if_neg hs] at h2
      obtain ⟨hown', hname⟩ := List.mem_filter.mp h2
      obtain ⟨hmem, hown⟩ := List.mem_filter.mp hown'
      refine ⟨hmem, by simpa using hown, fun s' hs' _ => ?_⟩
      rw [Option.some.injEq] at hs'
      rw [← hs']
      exact hname

/-- C5 (amended): List returns only records owned by the calling account,
for every caller and stored state; the optional name filter is the SQL LIKE
pattern built from the lowercased, whitespace-stripped search text — which
is exactly a case-insensitive substring match whenever the search text is
free of the `%` and `_` wildcards; the result is ordered by per-owner
sequence number ascending, records lacking one sorting first in global-id
order; and the page respects offset ≥ 0 and limit ≥ 1, returning at most
`limit` records. -/
theorem claim_c5_list (st : AppState) (caller : Nat) (search : Option String)
    (skip limit : Nat) (hlim : 1 ≤ limit) :
    (∀ r ∈ list_persons st caller search skip limit, r.owner_id = some caller) ∧
    (∀ s, search = some s → s ≠ "" →
      ∀ r ∈ list_persons st caller search skip limit, nameFilter s r.name = true) ∧
    (∀ s, search = some s → s ≠ "" → plainList (lowerChars (stripChars s.data)) →
      ∀ r ∈ list_persons st caller search skip limit,
        SubSeg (lowerChars (stripChars s.data)) (lowerChars r.name.data)) ∧
    List.Pairwise (fun a b =>
      (∀ x y, a.user_person_id = some x → b.user_person_id = some y → x ≤ y) ∧
      (a.user_person_id = none → b.user_person_id = none → a.id ≤ b.id) ∧
      (b.user_person_id = none → a.user_person_id = none))
      (list_persons st caller search skip limit) ∧
    (list_persons st caller search skip limit).length ≤ limit := by
  refine ⟨?_, ?_, ?_, ?_, ?_⟩
  · intro r hr
    exact (list_persons_mem hr).2.1
  · intro s hs hne r hr
    exact (list_persons_mem hr).2.2 s hs hne
  · intro s hs hne hplain r hr
    have hname := (list_persons_mem hr).2.2 s hs hne
    exact (likeMatch_plain_sub _ _ hplain).mp hname
  · have hsorted : List.Pairwise rowLeP (list_persons st caller search skip limit) := by
      unfold list_persons
      exact List.Pairwise.sublist ((List.take_sublist _ _).trans (List.drop_sublist _ _))
        (List.sorted_insertionSort rowLeP _)
    refine hsorted.imp fun {a b} hab => ?_
    unfold rowLeP rowLe at hab
    refine ⟨fun x y hx hy => ?_, fun hxa hyb => ?_, fun hyb => ?_⟩ <;>
      rcases ha : a.user_person_id with _ | x' <;>
        rcases hb : b.user_person_id with _ | y' <;>
          simp_all <;> omega
  · unfold list_persons
    rw [List.length_take]
    exact Nat.min_le_left _ _

/-- C5 witness: a page of at most 50 records for a search on the one-record
store. -/
theorem claim_c5_list_witness :
    (list_persons appOne 1 (some "bo") 0 50).length ≤ 50 :=
  (claim_c5_list appOne 1 (some "bo") 0 50 (by decide)).2.2.2.2

end PeopleManager
